import Mathlib

/-!
# Verification of the pySVG chart-geometry core

Shallow embedding of the core numeric/geometric routines of the pySVG
program (files `filetext.py` and `svgelements.py`) together with proofs
of the specified properties.

Modelling conventions:

* Python 2 integers are `Int`; Python 2 integer division `/` floors, so it
  is embedded as `Int.fdiv`.
* Python floats are embedded as exact rationals `ℚ`; every concrete input
  appearing in a claim involves only small integers and dyadic divisions,
  on which IEEE double arithmetic is exact, so the `ℚ` model agrees with
  the float computation there.  Angles that the source measures in
  radians as multiples of the float constant `pi` are carried as exact
  rational multiples of π (the coefficient of π); they are rescaled by
  `Real.pi` in the statements that talk about actual angles.
* Fallible operations (an `IndexError` during transposition, the
  `ZeroDivisionError` in the regression slope, a `sys.exit(2)`) are
  embedded with `Option`/`Except`.
-/

namespace PySVG

/-! ## `filetext.readinputfile` — transposition of the token table

`readinputfile` splits each line into tokens (row-major table `cad`),
then transposes: `for poscad1 in range(len(cad1)): for poscad in
range(len(cad)): auxcad.append(cad[poscad][poscad1])`.  The loop bound
`cad1` is the *last* row read.  An out-of-range access raises
`IndexError`, caught and turned into an error exit; this is the `none`
case below. -/

/-- Sequencing of a fallible access over a list (the inner/outer `for`
loops of the transposition, which abort on the first `IndexError`). -/
def optmap {α β : Type} (f : α → Option β) : List α → Option (List β)
  | [] => some []
  | a :: l =>
      match f a, optmap f l with
      | some b, some bs => some (b :: bs)
      | _, _ => none

/-- The transposition step of `readinputfile` (filetext.py lines 65–75):
the column count is the token count of the last row `cad1`, and entry
`finalcad[poscad1][poscad] = cad[poscad][poscad1]`; any missing entry is
the `IndexError` branch, modelled as `none`. -/
def transposeTable (cad : List (List String)) : Option (List (List String)) :=
  match cad.getLast? with
  | none => none
  | some cad1 =>
      optmap (fun poscad1 => optmap (fun row => row.get? poscad1) cad) (List.range cad1.length)

/-! ## Bar-diagram axis tick loop

`Bardiagram.printsvg` (svgelements.py lines 2193–2207) runs
`counter = 0; inc = int(yrange); while inc <= heightmaxbar: …;
counter += 1; inc = int(yrange) + int(yinc) * counter`, where
`heightmaxbar` is the maximum of the y column.  The loop is embedded
with explicit fuel; `none` means the fuel ran out before the loop
finished. -/

/-- One execution of the tick `while` loop starting at iteration
`counter`, collecting every emitted tick value `yrange + yinc * counter`. -/
def ticksFrom (yrange yinc maxv : Int) (counter : Nat) (fuel : Nat) : Option (List Int) :=
  match fuel with
  | 0 => none
  | fuel + 1 =>
      let inc := yrange + yinc * (counter : Int)
      if inc ≤ maxv then
        match ticksFrom yrange yinc maxv (counter + 1) fuel with
        | none => none
        | some rest => some (inc :: rest)
      else
        some []

/-- The tick loop as run by `Bardiagram.printsvg`: `counter` starts at 0. -/
def tickLoop (yrange yinc maxv : Int) (fuel : Nat) : Option (List Int) :=
  ticksFrom yrange yinc maxv 0 fuel

/-! ## Pie chart: `totalsum`, `valuestoradians`, arc flag, label offset -/

/-- `Piechart.totalsum` (lines 1472–1484): `self.sumvalues` starts at 0
and accumulates `int(value)` over the values column. -/
def totalsum (values : List Int) : Int :=
  values.foldl (fun sumvalues value => sumvalues + value) 0

/-- `Piechart.valuestoradians` (lines 1486–1505) computes
`(int(value) * 2 * pi) / self.sumvalues` for each value.  The result is
carried as the exact coefficient of π: the source's radian value is
`valuestoradians values s` pointwise multiplied by the constant π. -/
def valuestoradians (values : List Int) (sumvalues : Int) : List ℚ :=
  values.map (fun (value : Int) => ((value : ℚ) * 2) / (sumvalues : ℚ))

/-- The large-arc-flag branch of `Path.printsvg` (lines 540–543):
`if (self.radian > pi): string += "1" else: string += "0"`.  The slice
span `self.radian` is given as its coefficient of π. -/
def largearcflag (radianOverPi : ℚ) : String :=
  if 1 < radianOverPi then "1" else "0"

/-- The percentage-label radial factor of `Piechart.printsvg`
(lines 1831–1845): the label sits at distance `radius * 1.4` from the
centre when `3*pi/4 < initianradian + value/2 < 5*pi/4`, and at
`radius * 1.2` otherwise.  The angular midpoint
`initianradian + value/2` is given as its coefficient of π. -/
def labelradiusfactor (midOverPi : ℚ) : ℚ :=
  if 3 / 4 < midOverPi ∧ midOverPi < 5 / 4 then 14 / 10 else 12 / 10

/-- The input-shape guard at the top of `Piechart.printsvg`
(lines 1800–1811): `if (len(self.listvalues) != int(self.colorfld))`
print "Incorrect input data" and `sys.exit(2)`; only otherwise does the
slice-emitting loop run.  `Except.error 2` is the exit status. -/
def piechartGuard (listvalues : List (List String)) (colorfld : Int) : Except Nat Unit :=
  if (listvalues.length : Int) ≠ colorfld then Except.error 2 else Except.ok ()

/-! ## Scatterplot regression: `getaverage`, `getvariance`,
`getcovariance`, `getregressionline`

The source (lines 2750–2842) works on the full column table indexed by
`self.xcolumn`/`self.ycolumn`; the embedding takes the two selected
columns `xs`, `ys` directly.  All Python 2 integer divisions floor
(`Int.fdiv`).  `float(...)` arithmetic is carried in `ℚ`. -/

/-- `Scatterplot.getaverage` (lines 2750–2764): integer sum, then the
flooring integer division `sumlval / len(lval)`. -/
def getaverage (lval : List Int) : Int :=
  Int.fdiv (lval.foldl (fun sumlval num => sumlval + num) 0) (lval.length : Int)

/-- `Scatterplot.getvariance` (lines 2766–2786):
`var += (x - avg) * (x - avg)` then the flooring division `var / len`. -/
def getvariance (lval : List Int) : Int :=
  Int.fdiv
    (lval.foldl (fun var num => var + (num - getaverage lval) * (num - getaverage lval)) 0)
    (lval.length : Int)

/-- `Scatterplot.getcovariance` (lines 2788–2811):
`covar += (x_i - avg X) * (y_i - avg Y)` over `range(len(X))`, then the
flooring division by `len(X)`.  `ys.getD` mirrors the unchecked index
`Y[num]` (the claims only use equal-length columns). -/
def getcovariance (xs ys : List Int) : Int :=
  Int.fdiv
    ((List.range xs.length).foldl
      (fun covar num =>
        covar + (xs.getD num 0 - getaverage xs) * (ys.getD num 0 - getaverage ys)) 0)
    (xs.length : Int)

/-- `Scatterplot.getregressionline` (lines 2814–2842):
`bcomponent = float(cov) / float(var X)` — a `ZeroDivisionError`
(modelled `none`) when the variance is 0 — then for each row
`ylist = bcomponent * (float(x_i) - float(avg X)) + avg Y` and the pair
`[float(x_i), ylist]` is appended. -/
def getregressionline (xs ys : List Int) : Option (List (ℚ × ℚ)) :=
  if getvariance xs = 0 then none
  else
    let bcomponent : ℚ := (getcovariance xs ys : ℚ) / (getvariance xs : ℚ)
    some ((List.range xs.length).map (fun cont =>
      ((xs.getD cont 0 : ℚ),
        bcomponent * ((xs.getD cont 0 : ℚ) - (getaverage xs : ℚ)) + (getaverage ys : ℚ))))

/-! ## Generic helper lemmas -/

theorem foldl_add_eq (l : List Int) (a : Int) :
    l.foldl (fun s v => s + v) a = a + l.sum := by
  induction l generalizing a with
  | nil => simp
  | cons x xs ih => simp [List.foldl_cons, ih, List.sum_cons]; ring

theorem totalsum_eq_sum (values : List Int) : totalsum values = values.sum :=
  by simpa using foldl_add_eq values 0

theorem foldl_add_map (l : List Int) (f : Int → Int) (a : Int) :
    l.foldl (fun s v => s + f v) a = a + (l.map f).sum := by
  induction l generalizing a with
  | nil => simp
  | cons x xs ih => simp [List.foldl_cons, ih, List.sum_cons]; ring

theorem optmap_eq_map {α β : Type} (f : α → Option β) (g : α → β) (l : List α)
    (h : ∀ a ∈ l, f a = some (g a)) : optmap f l = some (l.map g) := by
  induction l with
  | nil => rfl
  | cons x xs ih =>
      have hx : f x = some (g x) := h x (List.mem_cons_self x xs)
      have hxs : optmap f xs = some (xs.map g) := ih (fun a ha => h a (List.mem_cons_of_mem x ha))
      simp [optmap, hx, hxs]

theorem optmap_eq_none {α β : Type} (f : α → Option β) (l : List α) (a : α)
    (ha : a ∈ l) (hf : f a = none) : optmap f l = none := by
  induction l with
  | nil => cases ha
  | cons x xs ih =>
      rcases List.mem_cons.mp ha with h | h
      · subst h; simp [optmap, hf]
      · cases hfx : f x with
        | none => simp [optmap, hfx]
        | some b => simp [optmap, hfx, ih h]

theorem map_range_getD {α : Type} (l : List α) (d : α) :
    (List.range l.length).map (fun c => l.getD c d) = l := by
  induction l with
  | nil => rfl
  | cons x xs ih =>
      rw [List.length_cons, List.range_succ_eq_map, List.map_cons, List.map_map]
      simp only [List.getD_cons_zero, Function.comp]
      congr 1

theorem get?_eq_getD {α : Type} (l : List α) (n : Nat) (d : α) (h : n < l.length) :
    l.get? n = some (l.getD n d) := by
  induction l generalizing n with
  | nil => simp at h
  | cons x xs ih =>
      cases n with
      | zero => rfl
      | succ m => simpa using ih m (by simpa using h)

theorem getD_map {α β : Type} (l : List α) (f : α → β) (n : Nat) (d : β) (h : n < l.length) :
    (l.map f).getD n d = f (l.get ⟨n, h⟩) := by
  induction l generalizing n with
  | nil => simp at h
  | cons x xs ih =>
      cases n with
      | zero => rfl
      | succ m => simpa using ih m (by simpa using h)

/-! ## C2 — malformed-input behaviour of `readinputfile` -/

/-- C2 counterexample: a file whose rows have 4 then 3 tokens has
differing token counts, yet `readinputfile`'s transposition succeeds and
returns a (silently truncated) table instead of failing: only the token
count of the *last* row bounds the loop. -/
theorem transposeTable_unequal_rows_succeeds :
    transposeTable [["a", "b", "c", "d"], ["x", "y", "z"]] =
      some [["a", "x"], ["b", "y"], ["c", "z"]] := by decide

/-- C2 (amended): the transposition fails with the column-count-mismatch
error (the caught `IndexError`, exit status 2, no table returned)
exactly in the direction the scenario exercises: whenever some row has
fewer tokens than the *last* row — in particular a file with a 3-token
row followed by a 4-token row. -/
theorem transposeTable_short_row_fails (cad : List (List String)) (cad1 row : List String)
    (hlast : cad.getLast? = some cad1) (hrow : row ∈ cad)
    (hshort : row.length < cad1.length) :
    transposeTable cad = none := by
  unfold transposeTable
  rw [hlast]
  apply optmap_eq_none _ _ row.length (List.mem_range.mpr hshort)
  apply optmap_eq_none _ _ row hrow
  exact List.get?_eq_none.mpr (le_refl _)

/-- Witness for `transposeTable_short_row_fails`: rows of 3 and 4 tokens. -/
theorem transposeTable_short_row_fails_witness :
    transposeTable [["a", "b", "c"], ["x", "y", "z", "w"]] = none :=
  transposeTable_short_row_fails [["a", "b", "c"], ["x", "y", "z", "w"]]
    ["x", "y", "z", "w"] ["a", "b", "c"] (by decide)
    (by simp) (by decide)

/-! ## C9 — transposition round-trip -/

/-- The transposition on a rectangular table (every row of length L)
succeeds and produces the column-major table. -/
theorem transposeTable_rect (R : List (List String)) (L : Nat) (hne : R ≠ [])
    (hrows : ∀ row ∈ R, row.length = L) :
    transposeTable R =
      some ((List.range L).map (fun c => R.map (fun row => row.getD c ""))) := by
  have hlast : R.getLast? = some (R.getLast hne) := List.getLast?_eq_getLast R hne
  have hlen : (R.getLast hne).length = L := hrows _ (List.getLast_mem hne)
  unfold transposeTable
  rw [hlast]
  dsimp only
  rw [hlen]
  apply optmap_eq_map
  intro c hc
  apply optmap_eq_map
  intro row hrowmem
  exact get?_eq_getD row c "" (by rw [hrows row hrowmem]; exact List.mem_range.mp hc)

/-- C9 counterexample: the table `[[]]` (one row with zero tokens) has
rows of equal length, but transposing twice yields the empty table, not
`[[]]` — the round-trip is not the identity there. -/
theorem transposeTable_roundtrip_fails_on_empty_row :
    (transposeTable [([] : List String)]).bind transposeTable ≠
      some [([] : List String)] := by decide

/-- C9 (amended): for every non-empty row-major table whose rows all
have the same positive length L, transposing twice returns the table
unchanged. -/
theorem transposeTable_roundtrip (R : List (List String)) (L : Nat)
    (hne : R ≠ []) (hL : 0 < L) (hrows : ∀ row ∈ R, row.length = L) :
    (transposeTable R).bind transposeTable = some R := by
  rw [transposeTable_rect R L hne hrows, Option.some_bind]
  set T := (List.range L).map (fun c => R.map (fun row => row.getD c "")) with hT
  have hTne : T ≠ [] := by
    rw [hT]
    simp only [ne_eq, List.map_eq_nil_iff, List.range_eq_nil]
    omega
  have hTrows : ∀ col ∈ T, col.length = R.length := by
    intro col hcol
    rw [hT] at hcol
    obtain ⟨c, -, rfl⟩ := List.mem_map.mp hcol
    exact List.length_map R _
  rw [transposeTable_rect T R.length hTne hTrows]
  congr 1
  apply List.ext_getElem
  · simp
  intro r h1 h2
  have hr : r < R.length := h2
  simp only [List.getElem_map, List.getElem_range]
  rw [hT, List.map_map]
  have hmap : ∀ c ∈ List.range L,
      ((fun col => List.getD col r "") ∘ fun c => R.map (fun row => row.getD c "")) c =
        (R.get ⟨r, hr⟩).getD c "" := by
    intro c hc
    simp only [Function.comp]
    exact getD_map R _ r "" hr
  rw [List.map_congr_left hmap]
  have hlenr : (R.get ⟨r, hr⟩).length = L := hrows _ (List.get_mem R r hr)
  conv_lhs => rw [← hlenr]
  rw [map_range_getD (R.get ⟨r, hr⟩) ""]
  simp [List.get_eq_getElem]

/-- Witness for `transposeTable_roundtrip` on a 2×2 table. -/
theorem transposeTable_roundtrip_witness :
    (transposeTable [["a", "b"], ["c", "d"]]).bind transposeTable =
      some [["a", "b"], ["c", "d"]] :=
  transposeTable_roundtrip [["a", "b"], ["c", "d"]] 2 (by decide) (by decide)
    (by intro row hrow; fin_cases hrow <;> rfl)

/-! ## C10 — pie chart colour-column guard -/

/-- C10: `Piechart.printsvg` reaches the slice-emitting loop exactly when
`int(colorfld)` equals the number of columns of the table; for every
other value of `colorfld` (in particular an existing, valid colour
column that is not the last one) it prints "Incorrect input data" and
exits with status 2 before emitting any slice. -/
theorem piechartGuard_ok_iff (listvalues : List (List String)) (colorfld : Int) :
    (piechartGuard listvalues colorfld = Except.ok () ↔ colorfld = (listvalues.length : Int)) ∧
    (piechartGuard listvalues colorfld = Except.error 2 ↔ colorfld ≠ (listvalues.length : Int)) := by
  unfold piechartGuard
  rcases eq_or_ne ((listvalues.length : Int)) colorfld with h | h
  · simp [h]
  · simp [h, Ne.symm h]

/-! ## C6 — large-arc flag -/

/-- C6 counterexample: for a slice whose angular span is exactly π
(coefficient of π equal to 1) the source emits large-arc-flag "0",
not "1" as claimed for spans ≥ π. -/
theorem largearcflag_at_pi : largearcflag 1 = "0" ∧ largearcflag 1 ≠ "1" := by
  constructor <;> decide

/-- C6 (amended): the large-arc-flag is "1" exactly for spans strictly
greater than π, and "0" for spans less than or equal to π. -/
theorem largearcflag_spec (radianOverPi : ℚ) :
    (1 < radianOverPi → largearcflag radianOverPi = "1") ∧
    (radianOverPi ≤ 1 → largearcflag radianOverPi = "0") := by
  constructor
  · intro h; simp [largearcflag, h]
  · intro h; simp [largearcflag, not_lt.mpr h]

/-- Witness for `largearcflag_spec` at spans `3π/2` and `π/2`. -/
theorem largearcflag_spec_witness :
    largearcflag (3 / 2) = "1" ∧ largearcflag (1 / 2) = "0" :=
  ⟨(largearcflag_spec (3 / 2)).1 (by norm_num), (largearcflag_spec (1 / 2)).2 (by norm_num)⟩

/-! ## C7 — percentage-label radial offset -/

/-- C7 counterexample: at an angular midpoint of exactly `3π/4`
(coefficient 3/4) the source uses the 1.2 factor, not 1.4 as the claim
asserts for the closed interval `[3π/4, 5π/4]`. -/
theorem labelradiusfactor_at_endpoint :
    labelradiusfactor (3 / 4) = 12 / 10 ∧ labelradiusfactor (3 / 4) ≠ 14 / 10 := by
  constructor <;> (unfold labelradiusfactor; norm_num)

/-- C7 (amended): the radial factor is 1.4 exactly when the slice's
angular midpoint lies in the open interval `(3π/4, 5π/4)`, and 1.2 on
the closed complement (including both endpoints). -/
theorem labelradiusfactor_spec (midOverPi : ℚ) :
    (3 / 4 < midOverPi ∧ midOverPi < 5 / 4 → labelradiusfactor midOverPi = 14 / 10) ∧
    (midOverPi ≤ 3 / 4 ∨ 5 / 4 ≤ midOverPi → labelradiusfactor midOverPi = 12 / 10) := by
  unfold labelradiusfactor
  constructor
  · intro h; simp [h]
  · rintro (h | h)
    · have : ¬ (3 / 4 < midOverPi ∧ midOverPi < 5 / 4) := by
        rintro ⟨h1, -⟩; exact absurd h (not_le.mpr h1)
      simp [this]
    · have : ¬ (3 / 4 < midOverPi ∧ midOverPi < 5 / 4) := by
        rintro ⟨-, h2⟩; exact absurd h (not_le.mpr h2)
      simp [this]

/-- Witness for `labelradiusfactor_spec` at midpoints `π` and `3π/2`. -/
theorem labelradiusfactor_spec_witness :
    labelradiusfactor 1 = 14 / 10 ∧ labelradiusfactor (3 / 2) = 12 / 10 :=
  ⟨(labelradiusfactor_spec 1).1 (by norm_num), (labelradiusfactor_spec (3 / 2)).2 (by norm_num)⟩

/-! ## C3 — bar-diagram axis tick loop -/

/-- Fuel-indexed specification of the tick `while` loop: with positive
increment and enough fuel the loop terminates and emits exactly the
ticks `yrange + yinc * (counter + k)` while they are ≤ `maxv`. -/
theorem ticksFrom_spec (yrange yinc maxv : Int) (hinc : 0 < yinc) :
    ∀ (fuel : Nat) (counter : Nat),
      (maxv + 1 - (yrange + yinc * counter)).toNat + 1 ≤ fuel →
      ∃ ts : List Int,
        ticksFrom yrange yinc maxv counter fuel = some ts ∧
        (∀ k : Nat, k < ts.length → ts.get? k = some (yrange + yinc * (counter + k))) ∧
        (∀ t ∈ ts, t ≤ maxv) ∧
        maxv < yrange + yinc * (counter + ts.length) := by
  intro fuel
  induction fuel with
  | zero => intro counter h; omega
  | succ f ih =>
      intro counter h
      by_cases hle : yrange + yinc * (counter : Int) ≤ maxv
      · have hstep : yinc * (((counter + 1 : Nat) : Int)) = yinc * counter + yinc := by
          push_cast; ring
        have hfuel' : (maxv + 1 - (yrange + yinc * ((counter + 1 : Nat) : Int))).toNat + 1 ≤ f := by
          omega
        obtain ⟨ts', h1, h2, h3, h4⟩ := ih (counter + 1) hfuel'
        refine ⟨(yrange + yinc * (counter : Int)) :: ts', ?_, ?_, ?_, ?_⟩
        · simp only [ticksFrom, if_pos hle, h1]
        · intro k hk
          cases k with
          | zero => simp
          | succ m =>
              have hm : m < ts'.length := by simpa using hk
              have hh := h2 m hm
              simp only [List.get?_cons_succ, hh]
              congr 2
              push_cast
              ring
        · intro t ht
          rcases List.mem_cons.mp ht with h | h
          · subst h; exact hle
          · exact h3 t h
        · have hlen : ((yrange + yinc * (counter : Int)) :: ts').length = ts'.length + 1 := rfl
          rw [hlen]
          convert h4 using 2
          push_cast
          ring
      · refine ⟨[], ?_, ?_, ?_, ?_⟩
        · simp only [ticksFrom, if_neg hle]
        · intro k hk; simp at hk
        · intro t ht; simp at ht
        · simpa using not_le.mp hle

/-- C3: with `yinc > 0` the axis tick loop of `Bardiagram.printsvg`
terminates (the stated fuel suffices) and emits exactly the ticks
`yrange + yinc * k` for k = 0, 1, 2, …; every emitted tick is ≤ the
column maximum `maxv`, and the first non-emitted tick
`yrange + yinc * length` exceeds `maxv`. -/
theorem tickLoop_spec (yrange yinc maxv : Int) (hinc : 0 < yinc) :
    ∃ ts : List Int,
      tickLoop yrange yinc maxv ((maxv + 1 - yrange).toNat + 1) = some ts ∧
      (∀ k : Nat, k < ts.length → ts.get? k = some (yrange + yinc * k)) ∧
      (∀ t ∈ ts, t ≤ maxv) ∧
      maxv < yrange + yinc * ts.length := by
  have hfuel : (maxv + 1 - (yrange + yinc * (0 : Nat))).toNat + 1 ≤ (maxv + 1 - yrange).toNat + 1 := by
    simp
  obtain ⟨ts, h1, h2, h3, h4⟩ := ticksFrom_spec yrange yinc maxv hinc ((maxv + 1 - yrange).toNat + 1) 0 hfuel
  refine ⟨ts, h1, ?_, h3, ?_⟩
  · intro k hk
    simpa using h2 k hk
  · simpa using h4

/-- Witness for `tickLoop_spec` at the bar-axis scenario: column maximum
366, range 0, increment 20. -/
theorem tickLoop_spec_witness :
    ∃ ts : List Int,
      tickLoop 0 20 366 ((((366 : Int) + 1 - 0).toNat) + 1) = some ts ∧
      (∀ k : Nat, k < ts.length → ts.get? k = some ((0 : Int) + 20 * (k : Int))) ∧
      (∀ t ∈ ts, t ≤ (366 : Int)) ∧
      (366 : Int) < 0 + 20 * (ts.length : Int) :=
  tickLoop_spec 0 20 366 (by norm_num)

/-- The bar-axis scenario in closed form: the emitted ticks for maximum
366, range 0, increment 20 are exactly 0, 20, …, 360. -/
theorem tickLoop_scenario :
    tickLoop 0 20 366 368 =
      some [0, 20, 40, 60, 80, 100, 120, 140, 160, 180, 200, 220, 240,
            260, 280, 300, 320, 340, 360] := by decide

/-! ## C4 — pie slice angles sum to 2π -/

/-- The rational angle coefficients sum to 2 whenever the divisor is the
(non-zero) column sum. -/
theorem valuestoradians_sum (values : List Int) (S : Int) (hS : (S : ℚ) ≠ 0)
    (hsum : values.sum = S) : (valuestoradians values S).sum = 2 := by
  unfold valuestoradians
  have h1 : (fun value : Int => ((value : ℚ) * 2) / (S : ℚ)) =
      fun value : Int => (value : ℚ) * (2 / (S : ℚ)) := by
    funext v; ring
  rw [h1, List.sum_map_mul_right]
  have h2 : (values.map (fun v : Int => (v : ℚ))).sum = ((values.sum : Int) : ℚ) :=
    (map_list_sum (Int.castRingHom ℚ) values).symm
  rw [h2, hsum]
  field_simp

/-- C4: for every non-empty list of positive values, the slice spans
`2π * value_i / Σvalue` produced by `totalsum` followed by
`valuestoradians` sum to exactly 2π (each span is the rational
coefficient computed by `valuestoradians` times π). -/
theorem piechart_angles_sum_two_pi (values : List Int) (hne : values ≠ [])
    (hpos : ∀ v ∈ values, 0 < v) :
    ((valuestoradians values (totalsum values)).map
        (fun (q : ℚ) => (q : ℝ) * Real.pi)).sum = 2 * Real.pi := by
  have hSpos : 0 < values.sum := List.sum_pos values hpos hne
  have hS : ((values.sum : Int) : ℚ) ≠ 0 := by
    exact_mod_cast hSpos.ne'
  have hts : totalsum values = values.sum := totalsum_eq_sum values
  have hq : (valuestoradians values (totalsum values)).sum = 2 := by
    rw [hts]; exact valuestoradians_sum values values.sum hS rfl
  rw [List.sum_map_mul_right]
  have h2 : (List.map (fun (q : ℚ) => (q : ℝ)) (valuestoradians values (totalsum values))).sum
      = (((valuestoradians values (totalsum values)).sum : ℚ) : ℝ) :=
    (map_list_sum (Rat.castHom ℝ) _).symm
  rw [h2, hq]
  norm_num

/-- Witness for `piechart_angles_sum_two_pi` on the value column [1,2,3]. -/
theorem piechart_angles_sum_two_pi_witness :
    ((valuestoradians [1, 2, 3] (totalsum [1, 2, 3])).map
        (fun (q : ℚ) => (q : ℝ) * Real.pi)).sum = 2 * Real.pi :=
  piechart_angles_sum_two_pi [1, 2, 3] (by decide) (by decide)

/-! ## C1 — regression on the synthetic line X = [1,2,3,4], Y = [2,4,6,8] -/

/-- C1 counterexample: on X = [1,2,3,4], Y = [2,4,6,8] the regression
does NOT reproduce the original Y values: the integer-floored mean of X
is 2 (not 5/2), so every fitted point is one above the data. -/
theorem getregressionline_synthetic_not_y :
    getregressionline [1, 2, 3, 4] [2, 4, 6, 8] ≠
      some [(1, 2), (2, 4), (3, 6), (4, 8)] := by
  have hcov : getcovariance [1, 2, 3, 4] [2, 4, 6, 8] = 2 := by decide
  have hvar : getvariance [1, 2, 3, 4] = 1 := by decide
  have havgx : getaverage [1, 2, 3, 4] = 2 := by decide
  have havgy : getaverage [2, 4, 6, 8] = 5 := by decide
  unfold getregressionline
  rw [hvar, hcov, havgx, havgy]
  norm_num [List.range_succ]

/-- C1 (amended): on X = [1,2,3,4], Y = [2,4,6,8] the slope
`b = cov/var = 2/1` is exactly 2, but because `getaverage` floors
(`mean X = 2`, `mean Y = 5`) the fitted points
`b*(x_i - mean X) + mean Y` are [3,5,7,9] — each original Y value
plus 1 — rather than the original Y values. -/
theorem getregressionline_synthetic :
    (getcovariance [1, 2, 3, 4] [2, 4, 6, 8] : ℚ) / (getvariance [1, 2, 3, 4] : ℚ) = 2 ∧
    getaverage [1, 2, 3, 4] = 2 ∧ getaverage [2, 4, 6, 8] = 5 ∧
    getregressionline [1, 2, 3, 4] [2, 4, 6, 8] =
      some [(1, 3), (2, 5), (3, 7), (4, 9)] := by
  have hcov : getcovariance [1, 2, 3, 4] [2, 4, 6, 8] = 2 := by decide
  have hvar : getvariance [1, 2, 3, 4] = 1 := by decide
  have havgx : getaverage [1, 2, 3, 4] = 2 := by decide
  have havgy : getaverage [2, 4, 6, 8] = 5 := by decide
  refine ⟨by rw [hcov, hvar]; norm_num, havgx, havgy, ?_⟩
  unfold getregressionline
  rw [hvar, hcov, havgx, havgy]
  norm_num [List.range_succ]

/-! ## C8 — regression on a degenerate (constant) X column -/

/-- A constant list has integer-floored average equal to the constant. -/
theorem getaverage_const (xs : List Int) (x0 : Int) (hne : xs ≠ [])
    (hall : ∀ v ∈ xs, v = x0) : getaverage xs = x0 := by
  unfold getaverage
  rw [foldl_add_eq]
  have hsum : xs.sum = (xs.length : Int) * x0 := by
    induction xs with
    | nil => simp
    | cons y ys ih =>
        have hy : y = x0 := hall y (List.mem_cons_self y ys)
        by_cases hys : ys = []
        · subst hys; simp [hy]
        · have := ih hys (fun v hv => hall v (List.mem_cons_of_mem y hv))
          simp [List.sum_cons, hy, this, List.length_cons]
          ring
  have hlen : (xs.length : Int) ≠ 0 := by
    simpa using (List.length_pos.mpr hne).ne'
  rw [zero_add, hsum, Int.mul_fdiv_cancel_left _ hlen]

/-- A constant list has variance 0. -/
theorem getvariance_const (xs : List Int) (x0 : Int) (hne : xs ≠ [])
    (hall : ∀ v ∈ xs, v = x0) : getvariance xs = 0 := by
  unfold getvariance
  have havg : getaverage xs = x0 := getaverage_const xs x0 hne hall
  rw [foldl_add_map]
  have hmap : xs.map (fun num => (num - getaverage xs) * (num - getaverage xs)) =
      xs.map (fun _ => 0) := by
    apply List.map_congr_left
    intro v hv
    rw [havg, hall v hv]
    ring
  rw [hmap]
  simp

/-- C8: whenever every X value is identical, `getvariance X = 0` and the
slope computation `float(cov)/float(var)` divides by zero, so
`getregressionline` fails (a `ZeroDivisionError` in the source) and no
fitted line is produced. -/
theorem getregressionline_const_x (xs ys : List Int) (x0 : Int) (hne : xs ≠ [])
    (hall : ∀ v ∈ xs, v = x0) : getregressionline xs ys = none := by
  unfold getregressionline
  rw [getvariance_const xs x0 hne hall]
  simp

/-- Witness for `getregressionline_const_x`: X = [5,5], Y = [1,2]. -/
theorem getregressionline_const_x_witness :
    getregressionline [5, 5] [1, 2] = none :=
  getregressionline_const_x [5, 5] [1, 2] 5 (by decide) (by decide)

/-! ## C5 — `Lineplot.ordenatewithquicksort` sorts by x

The point list handed to the sort by `Lineplot.printsvg` is a list of
`[x, y]` pairs (x at column index 0, y at index 1, the default
`xcolumn`/`ycolumn` selection), so the field swaps exchange whole
points.  Indices are embedded as `Nat`; the saturating `0 - 1 = 0`
agrees with the source in every guard the proofs reach (the guards
`first < jvar` and `ivar < jvar` both fail for `jvar = -1` and for the
saturated `jvar = 0`, which only occurs when `first = 0`).  The dead
`lpivot` accumulator of the source is omitted. -/

abbrev Point := Int × Int

/-- `lpoints[k]` as a total function (out-of-range reads junk; every
verified execution stays in range). -/
def aget (a : List Point) (k : Nat) : Point := a.getD k (0, 0)

/-- The component-wise swap of `lval[ivar]` and `lval[jvar]` through the
temporaries `aux1`/`aux2` (lines 3324–3331). -/
def swapP (a : List Point) (i j : Nat) : List Point :=
  (a.set i (aget a j)).set j (aget a i)

/-- The inner `while int(lval[ivar][x]) < pivot: ivar += 1` scan
(line 3319–3320), with fuel; `none` models a runaway scan
(`IndexError` in the source). -/
def scanup (a : List Point) (pivot : Int) : Nat → Nat → Option Nat
  | _, 0 => none
  | i, fuel + 1 =>
      match a.get? i with
      | none => none
      | some p => if p.1 < pivot then scanup a pivot (i + 1) fuel else some i

/-- The inner `while int(lval[jvar][x]) > pivot: jvar -= 1` scan
(lines 3321–3322). -/
def scandown (a : List Point) (pivot : Int) : Nat → Nat → Option Nat
  | _, 0 => none
  | j, fuel + 1 =>
      match a.get? j with
      | none => none
      | some p => if pivot < p.1 then scandown a pivot (j - 1) fuel else some j

/-- The outer `while ivar < jvar` partition loop (lines 3318–3333),
returning the final list and the final `ivar`, `jvar`. -/
def ploop (pivot : Int) (a : List Point) (i j : Nat) : Nat → Option (List Point × Nat × Nat)
  | 0 => none
  | fuel + 1 =>
      if i < j then
        match scanup a pivot i (a.length + 1), scandown a pivot j (a.length + 1) with
        | some i', some j' =>
            if i' ≤ j' then ploop pivot (swapP a i' j') (i' + 1) (j' - 1) fuel
            else some (a, i', j')
        | _, _ => none
      else
        some (a, i, j)

/-- `ordenatewithquicksort(lval, first, last)` (lines 3263–3338): pivot
is the floored average of the x values at `first` and `last`; after the
partition loop the function recurses on `[first, jvar]` when
`first < jvar` and on `[ivar, last]` when `last > ivar`. -/
def qsortAux (a : List Point) (first last : Nat) : Nat → Option (List Point)
  | 0 => none
  | fuel + 1 =>
      match a.get? first, a.get? last with
      | some pf, some pl =>
          let pivot := Int.fdiv (pf.1 + pl.1) 2
          match ploop pivot a first last (a.length + 2) with
          | some (a1, i, j) =>
              match (if first < j then qsortAux a1 first j fuel else some a1) with
              | some a2 => if i < last then qsortAux a2 i last fuel else some a2
              | none => none
          | none => none
      | _, _ => none

/-- The call made by `Lineplot.printsvg`:
`ordenatewithquicksort(lpoints, 0, len(lpoints)-1)`. -/
def ordenatewithquicksort (lpoints : List Point) : Option (List Point) :=
  qsortAux lpoints 0 (lpoints.length - 1) (lpoints.length + 1)

/-! Basic access lemmas. -/

theorem get?_eq_some_aget (a : List Point) (k : Nat) (h : k < a.length) :
    a.get? k = some (aget a k) := by
  unfold aget
  induction a generalizing k with
  | nil => simp at h
  | cons x xs ih =>
      cases k with
      | zero => rfl
      | succ m => simpa using ih m (by simpa using h)

theorem length_swapP (a : List Point) (i j : Nat) :
    (swapP a i j).length = a.length := by
  simp [swapP]

theorem aget_set_same (a : List Point) (k : Nat) (p : Point) (h : k < a.length) :
    aget (a.set k p) k = p := by
  unfold aget
  rw [List.getD_eq_getElem _ _ (by simpa using h)]
  simp [List.getElem_set_self]

theorem aget_set_other (a : List Point) (k m : Nat) (p : Point) (hkm : m ≠ k) :
    aget (a.set k p) m = aget a m := by
  unfold aget
  by_cases hm : m < a.length
  · rw [List.getD_eq_getElem _ _ (by simpa using hm), List.getD_eq_getElem _ _ hm]
    exact List.getElem_set_ne (Ne.symm hkm) _
  · rw [List.getD_eq_default _ _ (by simpa using not_lt.mp hm),
        List.getD_eq_default _ _ (by simpa using not_lt.mp hm)]

theorem aget_swapP_left (a : List Point) (i j : Nat) (hi : i < a.length) (hj : j < a.length) :
    aget (swapP a i j) i = aget a j := by
  unfold swapP
  by_cases hij : i = j
  · subst hij
    rw [aget_set_same _ _ _ (by simpa using hi)]
  · rw [aget_set_other _ _ _ _ hij, aget_set_same _ _ _ hi]

theorem aget_swapP_right (a : List Point) (i j : Nat) (hj : j < a.length) :
    aget (swapP a i j) j = aget a i := by
  unfold swapP
  rw [aget_set_same _ _ _ (by simpa using hj)]

theorem aget_swapP_other (a : List Point) (i j k : Nat) (hki : k ≠ i) (hkj : k ≠ j) :
    aget (swapP a i j) k = aget a k := by
  unfold swapP
  rw [aget_set_other _ _ _ _ hkj, aget_set_other _ _ _ _ hki]

/-! Slices of the point list, as index-window views. -/

/-- The window of `c` consecutive entries of `a` starting at index `f`. -/
def sliceFrom (a : List Point) (f c : Nat) : List Point :=
  (List.range c).map (fun t => aget a (f + t))

theorem sliceFrom_zero (a : List Point) (f : Nat) : sliceFrom a f 0 = [] := rfl

theorem sliceFrom_one (a : List Point) (f : Nat) : sliceFrom a f 1 = [aget a f] := by
  have h1 : List.range 1 = [0] := rfl
  simp [sliceFrom, h1]

theorem sliceFrom_append (a : List Point) (f c1 c2 : Nat) :
    sliceFrom a f (c1 + c2) = sliceFrom a f c1 ++ sliceFrom a (f + c1) c2 := by
  unfold sliceFrom
  rw [List.range_add, List.map_append, List.map_map]
  congr 1
  apply List.map_congr_left
  intro t ht
  simp only [Function.comp]
  congr 1
  omega

theorem mem_sliceFrom (a : List Point) (f c : Nat) (p : Point) :
    p ∈ sliceFrom a f c ↔ ∃ k, f ≤ k ∧ k < f + c ∧ aget a k = p := by
  unfold sliceFrom
  simp only [List.mem_map, List.mem_range]
  constructor
  · rintro ⟨t, ht, rfl⟩
    exact ⟨f + t, by omega, by omega, rfl⟩
  · rintro ⟨k, hk1, hk2, rfl⟩
    exact ⟨k - f, by omega, by congr 1; omega⟩

theorem sliceFrom_congr (a b : List Point) (f c : Nat)
    (h : ∀ k, f ≤ k → k < f + c → aget a k = aget b k) :
    sliceFrom a f c = sliceFrom b f c := by
  unfold sliceFrom
  apply List.map_congr_left
  intro t ht
  exact h (f + t) (by omega) (by simpa using List.mem_range.mp ht)

theorem length_sliceFrom (a : List Point) (f c : Nat) :
    (sliceFrom a f c).length = c := by
  simp [sliceFrom]

theorem sliceFrom_decomp (a : List Point) (f d1 d2 d3 : Nat) :
    sliceFrom a f (d1 + (1 + (d2 + (1 + d3)))) =
      sliceFrom a f d1 ++ aget a (f + d1) ::
        (sliceFrom a (f + d1 + 1) d2 ++ aget a (f + d1 + 1 + d2) ::
          sliceFrom a (f + d1 + 1 + d2 + 1) d3) := by
  rw [sliceFrom_append a f d1 (1 + (d2 + (1 + d3))),
      sliceFrom_append a (f + d1) 1 (d2 + (1 + d3)),
      sliceFrom_append a (f + d1 + 1) d2 (1 + d3),
      sliceFrom_append a (f + d1 + 1 + d2) 1 d3,
      sliceFrom_one, sliceFrom_one]
  simp

/-- Two windows that agree except that the entries at two positions are
exchanged are permutations of each other. -/
theorem slice_two_point_perm (b a : List Point) (f c m M : Nat)
    (hmM : m < M) (hfm : f ≤ m) (hMc : M < f + c)
    (hbm : aget b m = aget a M) (hbM : aget b M = aget a m)
    (hother : ∀ k, f ≤ k → k < f + c → k ≠ m → k ≠ M → aget b k = aget a k) :
    (sliceFrom b f c).Perm (sliceFrom a f c) := by
  have hc : c = (m - f) + (1 + ((M - m - 1) + (1 + (f + c - M - 1)))) := by omega
  have hm' : f + (m - f) = m := by omega
  rw [hc, sliceFrom_decomp b f (m - f) (M - m - 1) (f + c - M - 1),
      sliceFrom_decomp a f (m - f) (M - m - 1) (f + c - M - 1)]
  rw [hm']
  have hM' : m + 1 + (M - m - 1) = M := by omega
  rw [hM']
  have hS1 : sliceFrom b f (m - f) = sliceFrom a f (m - f) := by
    apply sliceFrom_congr
    intro k hk1 hk2
    exact hother k hk1 (by omega) (by omega) (by omega)
  have hS2 : sliceFrom b (m + 1) (M - m - 1) = sliceFrom a (m + 1) (M - m - 1) := by
    apply sliceFrom_congr
    intro k hk1 hk2
    exact hother k (by omega) (by omega) (by omega) (by omega)
  have hS3 : sliceFrom b (M + 1) (f + c - M - 1) = sliceFrom a (M + 1) (f + c - M - 1) := by
    apply sliceFrom_congr
    intro k hk1 hk2
    exact hother k (by omega) (by omega) (by omega) (by omega)
  rw [hS1, hS2, hS3, hbm, hbM]
  apply List.Perm.append_left
  exact List.Perm.trans (List.Perm.cons _ List.perm_middle)
    (List.Perm.trans (List.Perm.swap _ _ _) (List.Perm.cons _ List.perm_middle.symm))

theorem set_aget_self (a : List Point) (i : Nat) : a.set i (aget a i) = a := by
  by_cases hi : i < a.length
  · apply List.ext_getElem
    · simp
    intro k h1 h2
    rw [List.getElem_set]
    split
    · next h => subst h; unfold aget; rw [List.getD_eq_getElem _ _ (by simpa using hi)]
    · rfl
  · exact List.set_eq_of_length_le (by omega : a.length ≤ i)

theorem swapP_self (a : List Point) (i : Nat) : swapP a i i = a := by
  unfold swapP
  rw [List.set_set, set_aget_self]

/-- Swapping two in-window entries permutes the window. -/
theorem sliceFrom_swapP_perm (a : List Point) (f c i j : Nat)
    (hfi : f ≤ i) (hic : i < f + c) (hfj : f ≤ j) (hjc : j < f + c)
    (hi : i < a.length) (hj : j < a.length) :
    (sliceFrom (swapP a i j) f c).Perm (sliceFrom a f c) := by
  rcases Nat.lt_trichotomy i j with hij | hij | hij
  · exact slice_two_point_perm _ _ f c i j hij hfi hjc
      (aget_swapP_left a i j hi hj) (aget_swapP_right a i j hj)
      (fun k _ _ hki hkj => aget_swapP_other a i j k hki hkj)
  · subst hij
    rw [swapP_self]
  · exact slice_two_point_perm _ _ f c j i hij hfj hic
      (aget_swapP_right a i j hj) (aget_swapP_left a i j hi hj)
      (fun k _ _ hkj hki => aget_swapP_other a i j k hki hkj)

theorem countP_sliceFrom_le_one (a : List Point) (f c : Nat) (P : Point → Bool) (hc : 1 ≤ c)
    (h : ∀ k, f ≤ k → k < f + c - 1 → ¬ P (aget a k) = true) :
    (sliceFrom a f c).countP P ≤ 1 := by
  have hsplit : c = (c - 1) + 1 := by omega
  rw [hsplit, sliceFrom_append, List.countP_append, sliceFrom_one]
  have h0 : (sliceFrom a f (c - 1)).countP P = 0 := by
    rw [List.countP_eq_zero]
    intro p hp
    obtain ⟨k, hk1, hk2, rfl⟩ := (mem_sliceFrom a f (c - 1) p).mp hp
    exact h k hk1 (by omega)
  rw [h0, List.countP_cons]
  simp only [List.countP_nil]
  split <;> omega

theorem countP_sliceFrom_ge_two (a : List Point) (f c : Nat) (P : Point → Bool)
    (k1 k2 : Nat) (h1 : f ≤ k1) (h12 : k1 < k2) (h2 : k2 < f + c)
    (hp1 : P (aget a k1) = true) (hp2 : P (aget a k2) = true) :
    2 ≤ (sliceFrom a f c).countP P := by
  have hsplit : c = (k2 - f) + (c - (k2 - f)) := by omega
  rw [hsplit, sliceFrom_append, List.countP_append]
  have hone : 0 < (sliceFrom a f (k2 - f)).countP P := by
    rw [List.countP_pos_iff]
    exact ⟨aget a k1, (mem_sliceFrom _ _ _ _).mpr ⟨k1, h1, by omega, rfl⟩, hp1⟩
  have htwo : 0 < (sliceFrom a (f + (k2 - f)) (c - (k2 - f))).countP P := by
    rw [List.countP_pos_iff]
    exact ⟨aget a k2, (mem_sliceFrom _ _ _ _).mpr ⟨k2, by omega, by omega, rfl⟩, hp2⟩
  omega

/-! Specifications of the two inner scans. -/

theorem scanup_spec (a : List Point) (pivot : Int) :
    ∀ (fuel i w : Nat), i ≤ w → w < a.length → pivot ≤ (aget a w).1 → w - i < fuel →
      ∃ ir, scanup a pivot i fuel = some ir ∧ i ≤ ir ∧ ir ≤ w ∧
        pivot ≤ (aget a ir).1 ∧ (∀ k, i ≤ k → k < ir → (aget a k).1 < pivot) := by
  intro fuel
  induction fuel with
  | zero => intro i w h1 h2 h3 h4; omega
  | succ f ih =>
      intro i w h1 h2 h3 h4
      have hilen : i < a.length := by omega
      have hget : a.get? i = some (aget a i) := get?_eq_some_aget a i hilen
      by_cases hlt : (aget a i).1 < pivot
      · have hiw : i ≠ w := by
          intro h; rw [h] at hlt; omega
        obtain ⟨ir, hr1, hr2, hr3, hr4, hr5⟩ := ih (i + 1) w (by omega) h2 h3 (by omega)
        refine ⟨ir, ?_, by omega, hr3, hr4, ?_⟩
        · simp only [scanup, hget, if_pos hlt]
          exact hr1
        · intro k hk1 hk2
          rcases Nat.eq_or_lt_of_le hk1 with h | h
          · subst h; exact hlt
          · exact hr5 k h hk2
      · refine ⟨i, ?_, le_refl i, h1, not_lt.mp hlt, ?_⟩
        · simp only [scanup, hget, if_neg hlt]
        · intro k hk1 hk2; omega

theorem scandown_spec (a : List Point) (pivot : Int) :
    ∀ (fuel j w : Nat), w ≤ j → j < a.length → (aget a w).1 ≤ pivot → j - w < fuel →
      ∃ jr, scandown a pivot j fuel = some jr ∧ jr ≤ j ∧ w ≤ jr ∧
        (aget a jr).1 ≤ pivot ∧ (∀ k, jr < k → k ≤ j → pivot < (aget a k).1) := by
  intro fuel
  induction fuel with
  | zero => intro j w h1 h2 h3 h4; omega
  | succ f ih =>
      intro j w h1 h2 h3 h4
      have hget : a.get? j = some (aget a j) := get?_eq_some_aget a j h2
      by_cases hlt : pivot < (aget a j).1
      · have hjw : j ≠ w := by
          intro h; rw [h] at hlt; omega
        have hj1 : w ≤ j - 1 := by omega
        obtain ⟨jr, hr1, hr2, hr3, hr4, hr5⟩ := ih (j - 1) w hj1 (by omega) h3 (by omega)
        refine ⟨jr, ?_, by omega, hr3, hr4, ?_⟩
        · simp only [scandown, hget, if_pos hlt]
          exact hr1
        · intro k hk1 hk2
          rcases Nat.eq_or_lt_of_le hk2 with h | h
          · subst h; exact hlt
          · exact hr5 k hk1 (by omega)
      · refine ⟨j, ?_, le_refl j, h1, not_lt.mp hlt, ?_⟩
        · simp only [scandown, hget, if_neg hlt]
        · intro k hk1 hk2; omega

/-! Specification of the partition loop. -/

theorem ploop_spec (pivot : Int) (first last : Nat) :
    ∀ (fuel : Nat) (a : List Point) (i j : Nat),
      last < a.length →
      first ≤ i → j ≤ last → i ≤ last + 1 →
      (∀ k, first ≤ k → k < i → (aget a k).1 ≤ pivot) →
      (∀ k, j < k → k ≤ last → pivot ≤ (aget a k).1) →
      (i < j → ∃ w, i ≤ w ∧ w ≤ last ∧ pivot ≤ (aget a w).1) →
      (i < j → ∃ w, first ≤ w ∧ w ≤ j ∧ (aget a w).1 ≤ pivot) →
      j - i < fuel →
      ∃ a2 i2 j2,
        ploop pivot a i j fuel = some (a2, i2, j2) ∧
        a2.length = a.length ∧
        (∀ k, k < first → aget a2 k = aget a k) ∧
        (∀ k, last < k → aget a2 k = aget a k) ∧
        (sliceFrom a2 first (last + 1 - first)).Perm (sliceFrom a first (last + 1 - first)) ∧
        i ≤ i2 ∧ j2 ≤ j ∧ j2 ≤ i2 ∧ i2 ≤ last + 1 ∧
        (i < j → first < i2 ∧ j2 < last) ∧
        (∀ k, first ≤ k → k < i2 → (aget a2 k).1 ≤ pivot) ∧
        (∀ k, j2 < k → k ≤ last → pivot ≤ (aget a2 k).1) := by
  intro fuel
  induction fuel with
  | zero => intro a i j _ _ _ _ _ _ _ hf; omega
  | succ f ih =>
      intro a i j hlen hfi hjl hile H4 H5 H6 H7 hfuel
      by_cases hij : i < j
      · -- loop body runs
        obtain ⟨wU, hwU1, hwU2, hwU3⟩ := H6 hij
        obtain ⟨wD, hwD1, hwD2, hwD3⟩ := H7 hij
        obtain ⟨i0, hup1, hup2, hup3, hup4, hup5⟩ :=
          scanup_spec a pivot (a.length + 1) i wU hwU1 (by omega) hwU3 (by omega)
        obtain ⟨j0, hdn1, hdn2, hdn3, hdn4, hdn5⟩ :=
          scandown_spec a pivot (a.length + 1) j wD hwD2 (by omega) hwD3 (by omega)
        have hi0len : i0 < a.length := by omega
        have hj0len : j0 < a.length := by omega
        have hj0first : first ≤ j0 := by omega
        have hi0last : i0 ≤ last := by omega
        have hj0last : j0 ≤ last := by omega
        by_cases hle : i0 ≤ j0
        · -- swap and continue
          set b := swapP a i0 j0 with hb
          have hblen : b.length = a.length := length_swapP a i0 j0
          have hbi0 : aget b i0 = aget a j0 := aget_swapP_left a i0 j0 hi0len hj0len
          have hbj0 : aget b j0 = aget a i0 := aget_swapP_right a i0 j0 hj0len
          have hbother : ∀ k, k ≠ i0 → k ≠ j0 → aget b k = aget a k :=
            fun k h1 h2 => aget_swapP_other a i0 j0 k h1 h2
          have hswap1 : last < b.length := by omega
          have hswap2 : first ≤ i0 + 1 := by omega
          have hswap3 : j0 - 1 ≤ last := by omega
          have hswap4 : j0 - 1 - (i0 + 1) < f := by omega
          have hswap5 : i0 + 1 ≤ last + 1 := by omega
          have H4b : ∀ k, first ≤ k → k < i0 + 1 → (aget b k).1 ≤ pivot := by
            intro k hk1 hk2
            by_cases hk : k = i0
            · subst hk; rw [hbi0]; exact hdn4
            · rw [hbother k hk (by omega)]
              by_cases hki : k < i
              · exact H4 k hk1 hki
              · exact le_of_lt (hup5 k (by omega) (by omega))
          have H5b : ∀ k, j0 - 1 < k → k ≤ last → pivot ≤ (aget b k).1 := by
            intro k hk1 hk2
            by_cases hk : k = j0
            · subst hk; rw [hbj0]; exact hup4
            · have hkj0 : j0 < k := by omega
              rw [hbother k (by omega) hk]
              by_cases hkj : k ≤ j
              · exact le_of_lt (hdn5 k hkj0 hkj)
              · exact H5 k (by omega) hk2
          have H6b : i0 + 1 < j0 - 1 → ∃ w, i0 + 1 ≤ w ∧ w ≤ last ∧ pivot ≤ (aget b w).1 := by
            intro h
            exact ⟨j0, by omega, hj0last, by rw [hbj0]; exact hup4⟩
          have H7b : i0 + 1 < j0 - 1 → ∃ w, first ≤ w ∧ w ≤ j0 - 1 ∧ (aget b w).1 ≤ pivot := by
            intro h
            exact ⟨i0, by omega, by omega, by rw [hbi0]; exact hdn4⟩
          obtain ⟨a2, i2, j2, hr1, hr2, hr3, hr4, hr5, hr6, hr7, hr8, hr8b, hr9, hr10, hr11⟩ :=
            ih b (i0 + 1) (j0 - 1) hswap1 hswap2 hswap3 hswap5 H4b H5b H6b H7b hswap4
          clear H4b H5b H6b H7b ih
          have hlen2 : a2.length = a.length := hr2.trans hblen
          have hii2 : i ≤ i2 := by omega
          have hjj2 : j2 ≤ j := by omega
          refine ⟨a2, i2, j2, ?_, hlen2, ?_, ?_, ?_, hii2, hjj2, hr8, hr8b, ?_, hr10, hr11⟩
          · rw [ploop, if_pos hij, hup1, hdn1]
            dsimp only
            rw [if_pos hle]
            exact hr1
          · intro k hk
            rw [hr3 k hk, hbother k (by omega) (by omega)]
          · intro k hk
            rw [hr4 k hk, hbother k (by omega) (by omega)]
          · exact List.Perm.trans hr5
              (sliceFrom_swapP_perm a first (last + 1 - first) i0 j0
                (by omega) (by omega) (by omega) (by omega) hi0len hj0len)
          · intro _
            constructor
            · omega
            · by_cases h2 : i0 + 1 < j0 - 1
              · exact (hr9 h2).2
              · have := hr6
                have := hr7
                -- in the exit case of the recursive call, j2 = j0 - 1
                omega
        · -- scans crossed: loop exits without a swap
          refine ⟨a, i0, j0, ?_, rfl, fun k _ => rfl, fun k _ => rfl, List.Perm.refl _,
            hup2, hdn2, by omega, by omega, fun _ => ⟨by omega, by omega⟩, ?_, ?_⟩
          · rw [ploop, if_pos hij, hup1, hdn1]
            dsimp only
            rw [if_neg hle]
          · intro k hk1 hk2
            by_cases hki : k < i
            · exact H4 k hk1 hki
            · exact le_of_lt (hup5 k (by omega) hk2)
          · intro k hk1 hk2
            by_cases hkj : k ≤ j
            · exact le_of_lt (hdn5 k hk1 hkj)
            · exact H5 k (by omega) hk2
      · -- i ≥ j: loop exits immediately
        refine ⟨a, i, j, ?_, rfl, fun k _ => rfl, fun k _ => rfl, List.Perm.refl _,
          le_refl i, le_refl j, by omega, hile, fun h => absurd h hij, H4, H5⟩
        rw [ploop, if_neg hij]

/-- A permutation of an inner window extends to an enclosing window when
everything else in the enclosing window is pointwise unchanged. -/
theorem sliceFrom_perm_extend (b a : List Point) (f l f1 l1 : Nat)
    (hff1 : f ≤ f1) (hf1l1 : f1 ≤ l1 + 1) (hl1l : l1 ≤ l)
    (hperm : (sliceFrom b f1 (l1 + 1 - f1)).Perm (sliceFrom a f1 (l1 + 1 - f1)))
    (hout1 : ∀ k, f ≤ k → k < f1 → aget b k = aget a k)
    (hout2 : ∀ k, l1 < k → k ≤ l → aget b k = aget a k) :
    (sliceFrom b f (l + 1 - f)).Perm (sliceFrom a f (l + 1 - f)) := by
  have hsplit : l + 1 - f = (f1 - f) + ((l1 + 1 - f1) + (l - l1)) := by omega
  have hmid : f + (f1 - f) = f1 := by omega
  have hend : f1 + (l1 + 1 - f1) = l1 + 1 := by omega
  rw [hsplit, sliceFrom_append b f (f1 - f) ((l1 + 1 - f1) + (l - l1)),
      sliceFrom_append a f (f1 - f) ((l1 + 1 - f1) + (l - l1)), hmid,
      sliceFrom_append b f1 (l1 + 1 - f1) (l - l1),
      sliceFrom_append a f1 (l1 + 1 - f1) (l - l1), hend]
  have h1 : sliceFrom b f (f1 - f) = sliceFrom a f (f1 - f) := by
    apply sliceFrom_congr
    intro k hk1 hk2
    exact hout1 k hk1 (by omega)
  have h3 : sliceFrom b (l1 + 1) (l - l1) = sliceFrom a (l1 + 1) (l - l1) := by
    apply sliceFrom_congr
    intro k hk1 hk2
    exact hout2 k (by omega) (by omega)
  rw [h1, h3]
  exact List.Perm.append_left _ (List.Perm.append hperm (List.Perm.refl _))

/-- Full monotonicity of the x-coordinates on an index range. -/
def sortedOn (a : List Point) (f l : Nat) : Prop :=
  ∀ k1 k2, f ≤ k1 → k1 ≤ k2 → k2 ≤ l → (aget a k1).1 ≤ (aget a k2).1

/-- Gluing the partition invariants and the two recursively sorted
subranges into sortedness of the whole range.  `a1` is the list after
the partition loop, `a2` after sorting `[first, j]`, `a3` after sorting
`[i, last]`. -/
theorem glue_sorted (a1 a2 a3 : List Point) (first last i j : Nat) (pivot : Int)
    (hji : j ≤ i)
    (H4 : ∀ k, first ≤ k → k < i → (aget a1 k).1 ≤ pivot)
    (H5 : ∀ k, j < k → k ≤ last → pivot ≤ (aget a1 k).1)
    (hs4 : ∀ k, j < k → aget a2 k = aget a1 k)
    (hs5 : (sliceFrom a2 first (j + 1 - first)).Perm (sliceFrom a1 first (j + 1 - first)))
    (hs6 : sortedOn a2 first j)
    (ht3 : ∀ k, k < i → aget a3 k = aget a2 k)
    (ht5 : (sliceFrom a3 i (last + 1 - i)).Perm (sliceFrom a2 i (last + 1 - i)))
    (ht6 : sortedOn a3 i last) :
    sortedOn a3 first last := by
  have hgap : ∀ k, first ≤ k → j < k → k < i → k ≤ last → (aget a3 k).1 = pivot := by
    intro k hk0 hk1 hk2 hk3
    rw [ht3 k hk2, hs4 k hk1]
    have h1 := H4 k hk0 hk2
    have h2 := H5 k hk1 hk3
    omega
  have hG1 : ∀ k, first ≤ k → k < i → k ≤ last → (aget a3 k).1 ≤ pivot := by
    intro k hk0 hk1 hk2
    by_cases hkj : k ≤ j
    · rw [ht3 k hk1]
      by_cases hjlt : j < i
      · -- the two subranges are disjoint: every value in [first, j] is ≤ pivot
        have hmem : aget a2 k ∈ sliceFrom a2 first (j + 1 - first) :=
          (mem_sliceFrom _ _ _ _).mpr ⟨k, hk0, by omega, rfl⟩
        have hmem2 := hs5.mem_iff.mp hmem
        obtain ⟨m, hm1, hm2, hm3⟩ := (mem_sliceFrom _ _ _ _).mp hmem2
        rw [← hm3]
        exact H4 m hm1 (by omega)
      · -- overlap: j = i; count the values above the pivot
        have hjei : j = i := by omega
        by_contra hgt
        push_neg at hgt
        have hk2j : k < j := by omega
        have hxj : pivot < (aget a2 j).1 :=
          lt_of_lt_of_le hgt (hs6 k j hk0 (by omega) (le_refl j))
        have hge2 : 2 ≤ (sliceFrom a2 first (j + 1 - first)).countP
            (fun p => decide (pivot < p.1)) := by
          apply countP_sliceFrom_ge_two a2 first (j + 1 - first) _ k j hk0 hk2j (by omega)
          · simpa using hgt
          · simpa using hxj
        have hle1 : (sliceFrom a1 first (j + 1 - first)).countP
            (fun p => decide (pivot < p.1)) ≤ 1 := by
          apply countP_sliceFrom_le_one a1 first (j + 1 - first) _ (by omega)
          intro m hm1 hm2
          have := H4 m hm1 (by omega)
          simp only [decide_eq_true_eq]
          omega
        rw [hs5.countP_eq] at hge2
        omega
    · have := hgap k hk0 (by omega) hk1 hk2
      omega
  have hG2 : ∀ k1 k2, first ≤ k1 → k1 ≤ k2 → k2 < i → k2 ≤ last →
      (aget a3 k1).1 ≤ (aget a3 k2).1 := by
    intro k1 k2 h1 h2 h3 h4
    by_cases hk2j : k2 ≤ j
    · rw [ht3 k1 (by omega), ht3 k2 h3]
      exact hs6 k1 k2 h1 h2 hk2j
    · rw [hgap k2 (by omega) (by omega) h3 h4]
      exact hG1 k1 h1 (by omega) (by omega)
  have hG3 : ∀ k1 k2, first ≤ k1 → k1 < i → i ≤ k2 → k2 ≤ last →
      (aget a3 k1).1 ≤ (aget a3 k2).1 := by
    intro k1 k2 h1 h2 h3 h4
    have hbound : ∀ p ∈ sliceFrom a2 i (last + 1 - i), (aget a3 k1).1 ≤ p.1 := by
      intro p hp
      obtain ⟨m, hm1, hm2, hm3⟩ := (mem_sliceFrom _ _ _ _).mp hp
      rw [← hm3]
      by_cases hmj : j < m
      · rw [hs4 m hmj]
        exact le_trans (hG1 k1 h1 h2 (by omega)) (H5 m hmj (by omega))
      · have hmi : m = i := by omega
        have hji' : j = i := by omega
        subst hmi
        rw [ht3 k1 h2]
        exact hs6 k1 m h1 (by omega) (by omega)
    have hmem : aget a3 k2 ∈ sliceFrom a3 i (last + 1 - i) :=
      (mem_sliceFrom _ _ _ _).mpr ⟨k2, h3, by omega, rfl⟩
    exact hbound _ (ht5.mem_iff.mp hmem)
  intro k1 k2 hk1 hk12 hk2
  by_cases hk2i : k2 < i
  · exact hG2 k1 k2 hk1 hk12 hk2i hk2
  · by_cases hk1i : k1 < i
    · exact hG3 k1 k2 hk1 hk1i (by omega) hk2
    · exact ht6 k1 k2 (by omega) hk12 hk2

theorem qsortAux_spec :
    ∀ (fuel : Nat) (a : List Point) (first last : Nat),
      last < a.length → first ≤ last → last - first < fuel →
      ∃ a3, qsortAux a first last fuel = some a3 ∧
        a3.length = a.length ∧
        (∀ k, k < first → aget a3 k = aget a k) ∧
        (∀ k, last < k → aget a3 k = aget a k) ∧
        (sliceFrom a3 first (last + 1 - first)).Perm (sliceFrom a first (last + 1 - first)) ∧
        sortedOn a3 first last := by
  intro fuel
  induction fuel with
  | zero => intro a first last _ _ hf; omega
  | succ f ih =>
      intro a first last hlen hfl hfuel
      have hflen : first < a.length := by omega
      have hgf : a.get? first = some (aget a first) := get?_eq_some_aget a first hflen
      have hgl : a.get? last = some (aget a last) := get?_eq_some_aget a last hlen
      set pivot := Int.fdiv ((aget a first).1 + (aget a last).1) 2 with hpiv
      have hpivle : pivot ≤ max (aget a first).1 (aget a last).1 := by
        rw [hpiv, Int.fdiv_eq_ediv _ (by norm_num)]
        rcases le_total (aget a first).1 (aget a last).1 with h | h
        · rw [max_eq_right h]; omega
        · rw [max_eq_left h]; omega
      have hpivge : min (aget a first).1 (aget a last).1 ≤ pivot := by
        rw [hpiv, Int.fdiv_eq_ediv _ (by norm_num)]
        rcases le_total (aget a first).1 (aget a last).1 with h | h
        · rw [min_eq_left h]; omega
        · rw [min_eq_right h]; omega
      obtain ⟨wU, hwU1, hwU2, hwU3⟩ :
          ∃ w, first ≤ w ∧ w ≤ last ∧ pivot ≤ (aget a w).1 := by
        rcases le_total (aget a first).1 (aget a last).1 with h | h
        · exact ⟨last, hfl, le_refl last, by rw [max_eq_right h] at hpivle; exact hpivle⟩
        · exact ⟨first, le_refl first, hfl, by rw [max_eq_left h] at hpivle; exact hpivle⟩
      obtain ⟨wD, hwD1, hwD2, hwD3⟩ :
          ∃ w, first ≤ w ∧ w ≤ last ∧ (aget a w).1 ≤ pivot := by
        rcases le_total (aget a first).1 (aget a last).1 with h | h
        · exact ⟨first, le_refl first, hfl, by rw [min_eq_left h] at hpivge; exact hpivge⟩
        · exact ⟨last, hfl, le_refl last, by rw [min_eq_right h] at hpivge; exact hpivge⟩
      obtain ⟨a1, i, j, hp1, hp2, hp3, hp4, hp5, hp6, hp7, hp8, hp8b, hp9, hp10, hp11⟩ :=
        ploop_spec pivot first last (a.length + 2) a first last hlen (le_refl first) (le_refl last)
          (by omega)
          (fun k hk1 hk2 => absurd hk2 (Nat.not_lt.mpr hk1))
          (fun k hk1 hk2 => absurd hk2 (Nat.not_le.mpr hk1))
          (fun _ => ⟨wU, hwU1, hwU2, hwU3⟩) (fun _ => ⟨wD, hwD1, hwD2, hwD3⟩) (by omega)
      -- the two recursive calls, with trivial versions when they are skipped
      by_cases hfj : first < j
      · -- sort of [first, j] really runs
        have hjlast : j < last := by
          have := (hp9 (by omega)).2
          omega
        have hjlen : j < a1.length := by omega
        obtain ⟨a2, hs1, hs2, hs3, hs4, hs5, hs6⟩ := ih a1 first j hjlen (by omega) (by omega)
        by_cases hil : i < last
        · have hfirsti : first < i := (hp9 (by omega)).1
          have hilen2 : last < a2.length := by omega
          obtain ⟨a3, ht1, ht2, ht3, ht4, ht5, ht6⟩ := ih a2 i last hilen2 (by omega) (by omega)
          refine ⟨a3, ?_, by omega, ?_, ?_, ?_, ?_⟩
          · rw [qsortAux, hgf, hgl]
            dsimp only
            rw [← hpiv, hp1]
            dsimp only
            rw [if_pos hfj, hs1]
            dsimp only
            rw [if_pos hil, ht1]
          · intro k hk
            rw [ht3 k (by omega), hs3 k hk, hp3 k hk]
          · intro k hk
            rw [ht4 k hk, hs4 k (by omega), hp4 k hk]
          · -- permutation of the whole [first, last] window
            have hP2 : (sliceFrom a2 first (last + 1 - first)).Perm
                (sliceFrom a1 first (last + 1 - first)) :=
              sliceFrom_perm_extend a2 a1 first last first j (le_refl first) (by omega)
                (by omega) hs5 (fun k hk1 hk2 => absurd hk1 (by omega))
                (fun k hk1 hk2 => hs4 k hk1)
            have hP3 : (sliceFrom a3 first (last + 1 - first)).Perm
                (sliceFrom a2 first (last + 1 - first)) :=
              sliceFrom_perm_extend a3 a2 first last i last (by omega) (by omega)
                (le_refl last) ht5 (fun k hk1 hk2 => ht3 k hk2)
                (fun k hk1 hk2 => absurd hk1 (by omega))
            exact (hP3.trans hP2).trans hp5
          · exact glue_sorted a1 a2 a3 first last i j pivot hp8 hp10 hp11
              hs4 hs5 hs6 ht3 ht5 ht6
        · -- second sort skipped: i ≥ last
          refine ⟨a2, ?_, by omega, ?_, ?_, ?_, ?_⟩
          · rw [qsortAux, hgf, hgl]
            dsimp only
            rw [← hpiv, hp1]
            dsimp only
            rw [if_pos hfj, hs1]
            dsimp only
            rw [if_neg hil]
          · intro k hk
            rw [hs3 k hk, hp3 k hk]
          · intro k hk
            rw [hs4 k (by omega), hp4 k hk]
          · have hP2 : (sliceFrom a2 first (last + 1 - first)).Perm
                (sliceFrom a1 first (last + 1 - first)) :=
              sliceFrom_perm_extend a2 a1 first last first j (le_refl first) (by omega)
                (by omega) hs5 (fun k hk1 hk2 => absurd hk1 (by omega))
                (fun k hk1 hk2 => hs4 k hk1)
            exact hP2.trans hp5
          · exact glue_sorted a1 a2 a2 first last i j pivot hp8 hp10 hp11
              hs4 hs5 hs6 (fun k hk => rfl) (List.Perm.refl _)
              (by intro k1 k2 h1 h2 h3
                  have hq : k1 = k2 := by omega
                  subst hq; exact le_refl _)
      · -- first sort skipped: j ≤ first
        by_cases hil : i < last
        · have hfirsti : first < i := by
            rcases Nat.eq_or_lt_of_le hfl with h | h
            · omega
            · exact (hp9 h).1
          have hilen2 : last < a1.length := by omega
          obtain ⟨a3, ht1, ht2, ht3, ht4, ht5, ht6⟩ := ih a1 i last hilen2 (by omega) (by omega)
          refine ⟨a3, ?_, by omega, ?_, ?_, ?_, ?_⟩
          · rw [qsortAux, hgf, hgl]
            dsimp only
            rw [← hpiv, hp1]
            dsimp only
            rw [if_neg hfj]
            dsimp only
            rw [if_pos hil, ht1]
          · intro k hk
            rw [ht3 k (by omega), hp3 k hk]
          · intro k hk
            rw [ht4 k hk, hp4 k hk]
          · have hP3 : (sliceFrom a3 first (last + 1 - first)).Perm
                (sliceFrom a1 first (last + 1 - first)) :=
              sliceFrom_perm_extend a3 a1 first last i last (by omega) (by omega)
                (le_refl last) ht5 (fun k hk1 hk2 => ht3 k hk2)
                (fun k hk1 hk2 => absurd hk1 (by omega))
            exact hP3.trans hp5
          · exact glue_sorted a1 a1 a3 first last i j pivot hp8 hp10 hp11
              (fun k hk => rfl) (List.Perm.refl _)
              (by intro k1 k2 h1 h2 h3
                  have hq : k1 = k2 := by omega
                  subst hq; exact le_refl _)
              ht3 ht5 ht6
        · -- both sorts skipped
          refine ⟨a1, ?_, by omega, hp3, hp4, hp5, ?_⟩
          · rw [qsortAux, hgf, hgl]
            dsimp only
            rw [← hpiv, hp1]
            dsimp only
            rw [if_neg hfj]
            dsimp only
            rw [if_neg hil]
          · exact glue_sorted a1 a1 a1 first last i j pivot hp8 hp10 hp11
              (fun k hk => rfl) (List.Perm.refl _)
              (by intro k1 k2 h1 h2 h3
                  have hq : k1 = k2 := by omega
                  subst hq; exact le_refl _)
              (fun k hk => rfl) (List.Perm.refl _)
              (by intro k1 k2 h1 h2 h3
                  have hq : k1 = k2 := by omega
                  subst hq; exact le_refl _)

/-- C5: for every non-empty point list, the call
`ordenatewithquicksort(lpoints, 0, len(lpoints)-1)` made by
`Lineplot.printsvg` terminates successfully and leaves the list with
non-decreasing x coordinates (`points[i].x <= points[i+1].x`); the
result is moreover a permutation of the input window. -/
theorem ordenatewithquicksort_sorts (lpoints : List Point) (hne : lpoints ≠ []) :
    ∃ out, ordenatewithquicksort lpoints = some out ∧
      out.length = lpoints.length ∧
      (∀ k, k + 1 < out.length → (aget out k).1 ≤ (aget out (k + 1)).1) ∧
      (sliceFrom out 0 lpoints.length).Perm (sliceFrom lpoints 0 lpoints.length) := by
  have hlen : 0 < lpoints.length := List.length_pos.mpr hne
  obtain ⟨out, h1, h2, h3, h4, h5, h6⟩ :=
    qsortAux_spec (lpoints.length + 1) lpoints 0 (lpoints.length - 1)
      (by omega) (by omega) (by omega)
  refine ⟨out, h1, h2, ?_, ?_⟩
  · intro k hk
    exact h6 k (k + 1) (Nat.zero_le k) (by omega) (by omega)
  · have hc : lpoints.length - 1 + 1 - 0 = lpoints.length := by omega
    rw [hc] at h5
    exact h5


/-- Witness for `ordenatewithquicksort_sorts` on [(3,1),(1,2),(2,3)]. -/
theorem ordenatewithquicksort_sorts_witness :
    ∃ out, ordenatewithquicksort [((3 : Int), (1 : Int)), (1, 2), (2, 3)] = some out ∧
      out.length = ([((3 : Int), (1 : Int)), (1, 2), (2, 3)] : List Point).length ∧
      (∀ k, k + 1 < out.length → (aget out k).1 ≤ (aget out (k + 1)).1) ∧
      (sliceFrom out 0 ([((3 : Int), (1 : Int)), (1, 2), (2, 3)] : List Point).length).Perm
        (sliceFrom [((3 : Int), (1 : Int)), (1, 2), (2, 3)] 0
          ([((3 : Int), (1 : Int)), (1, 2), (2, 3)] : List Point).length) :=
  ordenatewithquicksort_sorts [(3, 1), (1, 2), (2, 3)] (by decide)

/-- Closed-form evaluation of the sort on the witness input. -/
theorem ordenatewithquicksort_example :
    ordenatewithquicksort [((3 : Int), (1 : Int)), (1, 2), (2, 3)] =
      some [(1, 2), (2, 3), (3, 1)] := by decide

end PySVG
